import Mathlib

/-!
Verification of the xjson repository (Re-Searcher/xjson): a shallow embedding of
the record/registry classes in `src/xjson/` and of the XML-to-mapping codec
described by the specification, together with proofs and refutations of the
specification's claims about them.

Conventions used throughout:
* Python dicts keyed by strings become ordered association lists
  (`List (String × _)`), with dict assignment modelled as replace-or-append.
* Mutable objects become explicit state values threaded through operations.
* Python exceptions become `Except` results.
* Components whose source files are not present in the repository snapshot
  (`namespaces.py`, `json_target.py`, the encoder) are modelled from the
  specification; every such definition carries a doc comment starting with
  `Modelled from the spec:`.
-/

set_option maxHeartbeats 1000000
set_option maxRecDepth 100000
set_option linter.unusedVariables false

namespace XJsonSpec

/-- Does the first list start with the second? -/
def listStarts : List Char → List Char → Bool
  | _, [] => true
  | [], _ :: _ => false
  | a :: as, b :: bs => a == b && listStarts as bs

/-- Does `hay` contain `needle` as a contiguous substring? -/
def strContains (hay needle : String) : Bool :=
  (List.range (hay.data.length + 1)).any
    (fun i => listStarts (hay.data.drop i) needle.data)

/-! ### The metadata registry (src/xjson/registry.py) -/

/-- A metadata item as the registry sees it: something carrying an `ident`
attribute.  The payload stands for the rest of the object. -/
structure RegItem where
  ident : String
  payload : String
deriving DecidableEq

/-- `MetadataRegistry`: a dict from identifier to item, plus the class-level
`registered_ids` set (which no method of the source file ever adds to). -/
structure Registry where
  entries : List (String × RegItem)
  registeredIds : List String

/-- Python dict assignment `d[k] = v`: replace the value of an existing key in
place, otherwise append a new entry. -/
def setItem (l : List (String × RegItem)) (k : String) (v : RegItem) :
    List (String × RegItem) :=
  if l.any (fun e => e.1 == k) then
    l.map (fun e => if e.1 == k then (k, v) else e)
  else l ++ [(k, v)]

/-- `MetadataRegistry.register` (registry.py lines 32-43).  When
`replace_existing` is false the method possibly logs a warning (when the ident
is in `registered_ids` and `verbose` is set) and then hits `return`: that
`return` is outside the inner membership test, so the mapping is never touched
on this path.  Only the `replace_existing=True` path performs
`self[item.ident] = item`.  `registered_ids` is never modified. -/
def Registry.register (reg : Registry) (item : RegItem)
    (replaceExisting : Bool) (verbose : Bool) : Registry :=
  if !replaceExisting then
    -- the only behaviour in this branch is the optional LOGGER.warn call,
    -- which has no effect on the registry state; `verbose` is therefore unused
    reg
  else
    { reg with entries := setItem reg.entries item.ident item }

/-- Dict lookup on the registry. -/
def Registry.lookup (reg : Registry) (k : String) : Option RegItem :=
  (reg.entries.find? (fun e => e.1 == k)).map (·.2)

/-- The empty registry. -/
def Registry.empty : Registry := ⟨[], []⟩

/-! ### lxml element trees, as the XJson class sees them -/

/-- An lxml element: string tag (either `{uri}local` or a plain name), ordered
attribute dict, optional text, and a list of children. -/
inductive Elem where
  | mk (tag : String) (attrib : List (String × String)) (text : Option String)
       (children : List Elem)

def Elem.tag : Elem → String
  | .mk t _ _ _ => t

def Elem.attrib : Elem → List (String × String)
  | .mk _ a _ _ => a

def Elem.text : Elem → Option String
  | .mk _ _ tx _ => tx

def Elem.children : Elem → List Elem
  | .mk _ _ _ c => c

instance : Inhabited Elem := ⟨.mk "" [] none []⟩

/-- `elem.get(key)` on an lxml element: attribute lookup by exact key. -/
def Elem.getAttr (e : Elem) (key : String) : Option String :=
  (e.attrib.find? (fun a => a.1 == key)).map (·.2)

/-- `elem.set(key, value)` on an lxml element: replace the value under an
existing key, otherwise append the pair. -/
def Elem.setAttr : Elem → String → String → Elem
  | .mk t a tx c, key, value =>
    if a.any (fun p => p.1 == key) then
      .mk t (a.map (fun p => if p.1 == key then (key, value) else p)) tx c
    else
      .mk t (a ++ [(key, value)]) tx c

/-- `elem.text = t` on an lxml element. -/
def Elem.setText : Elem → String → Elem
  | .mk t a _ c, tx => .mk t a (some tx) c

/-- Append a child to an element (`etree.SubElement` attachment point). -/
def Elem.appendChild : Elem → Elem → Elem
  | .mk t a tx c, child => .mk t a tx (c ++ [child])

/-- Splits an lxml-style qualified tag `{uri}local` into
`(some uri, local)`; a plain name gives `(none, name)`.  This mirrors the
`namespace`/`localname` fields of `etree.QName`.  A `prefix:local` string is
not of this shape, matching `etree.QName` raising `ValueError` on it. -/
def splitTag (tag : String) : Option String × String :=
  match tag.data with
  | '\x7b' :: rest =>
    (some ⟨rest.takeWhile (fun c => c ≠ '\x7d')⟩,
     ⟨(rest.dropWhile (fun c => c ≠ '\x7d')).drop 1⟩)
  | _ => (none, tag)

/-- The namespace URIs mentioned by an element's own tag and attribute keys
(no recursion into children). -/
def Elem.ownUris (e : Elem) : List String :=
  (match (splitTag e.tag).1 with
   | some u => [u]
   | none => []) ++
  e.attrib.flatMap (fun a =>
    match (splitTag a.1).1 with
    | some u => [u]
    | none => [])

/-- All namespace URIs in a subtree, element before its children, in document
order (the order a depth-first walk reports them). -/
def Elem.urisOf : Elem → List String
  | .mk t a tx c =>
    (Elem.mk t a tx c).ownUris ++ urisList c
where
  urisList : List Elem → List String
    | [] => []
    | e :: es => e.urisOf ++ urisList es

/-- All proper descendants of an element in document order (what the
ElementPath query `.//name` ranges over). -/
def Elem.descendants : Elem → List Elem
  | .mk _ _ _ c => descList c
where
  descList : List Elem → List Elem
    | [] => []
    | e :: es => e :: e.descendants ++ descList es

/-! ### The namespace map

The source file `namespaces.py` (class `NamespaceMap`) is not part of the
repository snapshot; everything in this section is modelled from the
specification (spec section 4.1). -/

/-- A `NamespaceMap` value: ordered association list of
(namespace URI, short prefix) pairs.  The spec requires the association to be
injective and stable: once a URI is assigned a prefix the assignment never
changes, and the map never shrinks. -/
abbrev NsMap := List (String × String)

/-- Modelled from the spec: the prefix-minting scheme of
`NamespaceMap.add_from_uri` ("otherwise mints a new short, unused prefix").
The spec leaves the scheme open; we model it as a stable injective function of
the URI, which satisfies the spec's uniqueness and stability requirements. -/
def mintPfx (uri : String) : String := "ns-" ++ uri

/-- Look up the prefix recorded for a URI. -/
def NsMap.lookupUri (m : NsMap) (uri : String) : Option String :=
  (m.find? (fun e => e.1 == uri)).map (·.2)

/-- Look up the URI recorded for a prefix (the inverse direction of the
table, used when resolving prefixes in queries). -/
def NsMap.resolvePfx (m : NsMap) (p : String) : Option String :=
  (m.find? (fun e => e.2 == p)).map (·.1)

/-- Modelled from the spec: `NamespaceMap.add_from_uri` — returns the map
unchanged when the URI is known, otherwise records a fresh association. -/
def NsMap.addFromUri (m : NsMap) (uri : String) : NsMap :=
  match m.lookupUri uri with
  | some _ => m
  | none => m ++ [(uri, mintPfx uri)]

/-- Modelled from the spec: `NamespaceMap.add_from_tag` — extract the
namespace portion of a qualified name and register it; no-op for unqualified
names. -/
def NsMap.addFromTag (m : NsMap) (tag : String) : NsMap :=
  match (splitTag tag).1 with
  | some u => m.addFromUri u
  | none => m

/-- Modelled from the spec: `NamespaceMap.harvest_namespaces` — walk every
element and attribute name depth-first and register every encountered
namespace. -/
def harvestNamespaces (m : NsMap) (root : Elem) : NsMap :=
  root.urisOf.foldl NsMap.addFromUri m

/-- Modelled from the spec: `NamespaceMap.shorten` — shorten a qualified name
to `prefix:local`, registering an unregistered namespace first; a bare local
name shortens to itself.  Returns the possibly grown map together with the
QName-shaped result consumed by `qname_str`. -/
def NsMap.shorten (m : NsMap) (tag : String) : NsMap × (Option String × String) :=
  match splitTag tag with
  | (some u, loc) =>
    let m1 := m.addFromUri u
    (m1, (m1.lookupUri u, loc))
  | (none, loc) => (m, (none, loc))

/-- `qname_str` (xjson.py lines 24-31): render a QName-like pair as
`namespace:localname`, or just the local name when the namespace field is
`None` (or one of the literal strings the source also treats as empty). -/
def qnameStr (q : Option String × String) : String :=
  match q.1 with
  | some ns => if ns == "None" || ns == "none" then q.2 else ns ++ ":" ++ q.2
  | none => q.2

/-! ### The XJson record class (src/xjson/xjson.py) -/

/-- Python exceptions surfaced by the modelled methods. -/
inductive PyError where
  | valueError (msg : String)
  | typeError (msg : String)
  | keyError (key : String)
deriving DecidableEq

/-- Modelled from the Python standard library: `uuid.uuid5(namespace, name)`
is a deterministic digest of its two arguments; only that determinism matters
to any claim, so we model it as an injective tagged pairing. -/
def uuid5 (ns name : String) : String := "uuid5(" ++ ns ++ "," ++ name ++ ")"

/-- `uuid.NAMESPACE_DNS`, a fixed constant. -/
def NAMESPACE_DNS : String := "6ba7b810-9dad-11d1-80b4-00c04fd430c8"

/-- Modelled from the spec: `__version__` lives in the absent `_version.py`;
its exact value is irrelevant to every claim. -/
def xjsonVersion : String := "0.0.1"

/-- `XJSON_NAMESPACE` (xjson_namespace.py): the literal
`{http://geoanalytics.csiro.au/xjson/<version>}`. -/
def XJSON_NAMESPACE : String :=
  "\x7bhttp://geoanalytics.csiro.au/xjson/" ++ xjsonVersion ++ "\x7d"

/-- The state of one `XJson` instance.  `nsmap` stands for the
`NamespaceMap` object held in `self._namespaces`; in Python it is shared by
reference with every record wrapped from this record's subtree, so operations
below thread the updated map back into the parent state wherever the shared
object is mutated. -/
structure XJsonState where
  ident : String
  root : Elem
  nsmap : NsMap
  updateNamespaces : Bool
  tagName : String

instance : Inhabited XJsonState := ⟨⟨"", default, [], false, ""⟩⟩

/-- The `XJson.namespaces` property (xjson.py lines 198-205): when the update
flag is set, harvest namespaces from the underlying tree into the map and
clear the flag; afterwards return the cached map. -/
def namespacesProp (s : XJsonState) : NsMap × XJsonState :=
  if s.updateNamespaces then
    let m := harvestNamespaces s.nsmap s.root
    (m, { s with nsmap := m, updateNamespaces := false })
  else (s.nsmap, s)

/-- `XJson._try_expanding_tag` (xjson.py lines 234-245).  The method parses
its argument with `etree.QName`; when the parse succeeds and carries a
namespace it reads `self.namespaces` (a property access, which may trigger a
harvest) and looks the namespace up.  The recomputed string is assigned only
to the method-local variable `tag` and returned to nobody, so the caller's key
is never changed; the lookup result is likewise discarded (a missing key is a
caught `KeyError`).  The only caller-visible effect is the possible harvest
from the property access. -/
def tryExpandingTag (s : XJsonState) (tag : String) : XJsonState :=
  match (splitTag tag).1 with
  | some _ => (namespacesProp s).2
  | none => s

/-- `XJson.get_attribute` (xjson.py lines 207-211): call
`_try_expanding_tag` (whose result is discarded) and then read the attribute
under the original key. -/
def getAttribute (s : XJsonState) (attrName : String) :
    Option String × XJsonState :=
  let s1 := tryExpandingTag s attrName
  (s1.root.getAttr attrName, s1)

/-- `XJson.set_attributes` (xjson.py lines 213-222): for each key/value pair,
call `_try_expanding_tag` on the key and on the value (results discarded) and
then `self.root.set` under the original key. -/
def setAttributes (s : XJsonState) (kwargs : List (String × String)) :
    XJsonState :=
  kwargs.foldl
    (fun s kv =>
      let s1 := tryExpandingTag s kv.1
      let s2 := tryExpandingTag s1 kv.2
      { s2 with root := s2.root.setAttr kv.1 kv.2 })
    s

/-- The tail of `XJson.__init__` shared by both construction branches
(xjson.py lines 138-147): optionally set the text, run `set_attributes` when
keyword attributes were given, fix `self.tag`, then access the `namespaces`
property (triggering the first harvest unless an attribute key already did)
and `add_from_tag` the record's tag. -/
def initFinish (ident : String) (root0 : Elem) (tagArg : Option String)
    (text : Option String) (m0 : NsMap)
    (attributes : List (String × String)) : XJsonState :=
  let root1 := match text with
    | some tx => root0.setText tx
    | none => root0
  let s0 : XJsonState := ⟨ident, root1, m0, true, ""⟩
  let s1 := if attributes.isEmpty then s0 else setAttributes s0 attributes
  let tagVal := tagArg.getD s1.root.tag
  let s2 := (namespacesProp s1).2
  { s2 with nsmap := s2.nsmap.addFromTag tagVal, tagName := tagVal }

/-- `XJson.__init__` (xjson.py lines 117-151).  The identifier is computed
first and is the same constant for every instance; with an `elem` argument the
element is adopted as root, with a `tag` argument a fresh element is built
with the keyword attributes; with neither, `ValueError` is raised and no
record is produced.  (The message string concatenates two adjacent Python
string literals with no separating space, exactly as in the source.) -/
def XJson.init (elem : Option Elem) (tag : Option String)
    (text : Option String) (namespaces : Option NsMap)
    (attributes : List (String × String)) : Except PyError XJsonState :=
  let ident := uuid5 NAMESPACE_DNS (XJSON_NAMESPACE ++ "xjson")
  let m0 := namespaces.getD []
  match elem, tag with
  | some e, t => .ok (initFinish ident e t text m0 attributes)
  | none, some t => .ok (initFinish ident (Elem.mk t attributes text []) (some t) text m0 attributes)
  | none, none => .error (.valueError
      ("You need to specify one of the tag or elem arguments to" ++
       "construct a XJson instance"))

/-- `XJson.__str__` (xjson.py lines 153-158): the template
`XJson record {0}, tagged with {1}` filled with the identifier and the
shortened root tag (the `namespaces` property access may harvest first, and
`shorten` may register the root tag's namespace). -/
def strXJson (s : XJsonState) : String × XJsonState :=
  let (m, s1) := namespacesProp s
  let (m1, q) := m.shorten s1.root.tag
  ("XJson record " ++ s1.ident ++ ", tagged with " ++ qnameStr q,
   { s1 with nsmap := m1 })

/-- `XJson._wrap_element` (xjson.py lines 353-359): build
`XJson(elem=e, namespaces=self.namespaces)` — the property access in the
argument evaluation may harvest the parent's tree — then clear the child's
update flag.  The child's own `__init__` accesses the child's `namespaces`
property, harvesting the wrapped subtree into the shared map, and registers
the child's tag.  Because the map object is shared, the parent state is
returned with the map the child construction left behind. -/
def wrapElement (s : XJsonState) (e : Elem) : XJsonState × XJsonState :=
  match XJson.init (some e) none none (some (namespacesProp s).1) [] with
  | .ok child0 =>
    ({ (namespacesProp s).2 with
        nsmap := { child0 with updateNamespaces := false }.nsmap },
     { child0 with updateNamespaces := false })
  | .error _ =>
    -- unreachable: construction with an element argument never raises
    ((namespacesProp s).2, default)

/-- The fresh `etree.SubElement` that `XJson.add_subelement` builds: a new
element with the given tag, attributes set in order, and optional text. -/
def buildSubChild (tag : String) (text : Option String)
    (attributes : List (String × String)) : Elem :=
  let child1 := attributes.foldl (fun e kv => e.setAttr kv.1 kv.2)
    (Elem.mk tag [] none [])
  match text with
  | some tx => child1.setText tx
  | none => child1

/-- `XJson.add_subelement` (xjson.py lines 247-265): `_try_expanding_tag` the
tag (result discarded), attach the fresh child element with the given
attributes and text, set the namespace-update flag, and return the new child
wrapped as a record view (which immediately re-reads the `namespaces`
property).  Result: (parent state, child view). -/
def addSubelement (s : XJsonState) (tag : String) (text : Option String)
    (attributes : List (String × String)) : XJsonState × XJsonState :=
  let s1 := tryExpandingTag s tag
  let child := buildSubChild tag text attributes
  let s2 := { s1 with root := s1.root.appendChild child }
  let s3 := { s2 with updateNamespaces := true }
  wrapElement s3 child

/-- `XJson.yaml` (xjson.py lines 290-301).  The method evaluates `self.root`
and the `self.namespaces` property (possibly harvesting) and then calls
`yamlify(self.root, self.namespaces, indent_width=indent_width)`.  `yamlify`
is declared as `yamlify(xjson, indent_width=2)` (xjson.py line 47), so the
call binds `self.namespaces` to `indent_width` positionally and then passes
`indent_width` again by keyword: Python raises `TypeError` before `yamlify`'s
body ever runs, on every call. -/
def yamlMethod (s : XJsonState) (indentWidth : Nat) :
    Except PyError String × XJsonState :=
  (.error (.typeError
    "yamlify() got multiple values for argument indent_width"),
   (namespacesProp s).2)

/-! ### Path queries (`__getitem__` / `findall`) -/

/-- The ElementPath query shape the record class is used with (and which its
own test suite exercises): `.//name` — search all proper descendants for a
tag, where `name` is either `pfx:local` (resolved against the record's
namespace map, as lxml does with its `namespaces=` argument) or a plain
name matched literally. -/
structure PathQuery where
  pfx : Option String
  localName : String

/-- Resolve the queried name against a namespace table, as lxml's `findall`
does: a prefixed name whose prefix is not in the table raises; a plain name
passes through. -/
def resolveQuery (m : NsMap) : PathQuery → Except PyError String
  | ⟨none, localName⟩ => .ok localName
  | ⟨some p, localName⟩ =>
    match m.resolvePfx p with
    | some u => .ok ("\x7b" ++ u ++ "\x7d" ++ localName)
    | none => .error (.keyError p)

/-- `self.root.findall('.//name', namespaces=...)`: the matching descendants
in document order. -/
def findallRaw (root : Elem) (q : PathQuery) (m : NsMap) :
    Except PyError (List Elem) :=
  match resolveQuery m q with
  | .ok full => .ok (root.descendants.filter (fun e => e.tag == full))
  | .error err => .error err

/-- Wrap each raw result element as a record view
(`results = [self._wrap_element(r) for r in results]`), threading the shared
namespace-map mutations through the parent state. -/
def wrapAll (s : XJsonState) : List Elem → XJsonState × List XJsonState
  | [] => (s, [])
  | e :: es =>
    ((wrapAll (wrapElement s e).1 es).1,
     (wrapElement s e).2 :: (wrapAll (wrapElement s e).1 es).2)

/-- The unwrapped shape of a query result.  The wrapped results are `XJson`
views sharing one context object with the parent; what distinguishes two of
them is the element each one wraps, so the result records those elements. -/
inductive QueryResult where
  | noMatch
  | one (e : Elem)
  | many (es : List Elem)

/-- `record[query]` (xjson.py lines 160-167), i.e.
`self.findall(query, unwrap=True)` through `_query_wrapper._query`
(lines 303-351): inject `namespaces=self.namespaces` (a property access),
run `findall` on the root, wrap every result element as a record view, then
unwrap by length: an empty list becomes `None`, a singleton is unwrapped, any
longer list is returned whole.  A query whose prefix does not resolve
propagates the lxml error. -/
def getItem (s : XJsonState) (q : PathQuery) :
    Except PyError QueryResult × XJsonState :=
  match findallRaw (namespacesProp s).2.root q (namespacesProp s).1 with
  | .error err => (.error err, (namespacesProp s).2)
  | .ok elems =>
    (match (wrapAll (namespacesProp s).2 elems).2 with
     | [] => .ok .noMatch
     | [c] => .ok (.one c.root)
     | c1 :: c2 :: cs => .ok (.many ((c1 :: c2 :: cs).map (·.root))),
     (wrapAll (namespacesProp s).2 elems).1)

/-- The unwrap rule exactly as the claim states it: `None` for zero matches,
the single match unwrapped for exactly one, the ordered sequence of all
matches otherwise. -/
def specUnwrap : List Elem → QueryResult
  | [] => .noMatch
  | [e] => .one e
  | e1 :: e2 :: es => .many (e1 :: e2 :: es)

/-- The raw matches a query produces: `findall` on the root against the
record's (possibly just-harvested) namespace table. -/
def rawMatches (s : XJsonState) (q : PathQuery) : Except PyError (List Elem) :=
  findallRaw (namespacesProp s).2.root q (namespacesProp s).1

/-! ### The XML ↔ body-mapping codec

The decode half lived in the absent source file `json_target.py`
(`JSONLDTarget`); the encode half is described by the spec only (spec
sections 4.2 and 4.3).  Everything in this namespace is modelled from the
spec. -/

namespace Codec

/-- A qualified name as the XML parser's event stream delivers it: optional
namespace URI plus local name. -/
structure QName where
  uri : Option String
  loc : String
deriving DecidableEq

/-- A well-formed XML document after parsing: the tree of element events the
streaming tree-builder consumes (`ParseError`s happen upstream, at the byte
level, and yield no tree at all). -/
inductive Xml where
  | elem (tag : QName) (attrs : List (QName × String)) (text : Option String)
         (children : List Xml)

/-- A shortened name: optional prefix plus local name. -/
structure SName where
  pfx : Option String
  loc : String
deriving DecidableEq

/-- One frame of the body mapping (spec section 3): optional `#data`, the
`#attributes` pairs, and the children keyed by shortened tag in
first-occurrence document order.  A key's value list of length 1 stands for a
single nested mapping, length ≥ 2 for the repeated-tag list — exactly the two
shapes the decode pass produces (it never builds a one-element list). -/
inductive Body where
  | node (data : Option String) (attrs : List (SName × String))
         (children : List (SName × List Body))

/-- Modelled from the spec: shorten a qualified name via the namespace
table.  With the pure minting scheme the table is implicit: a namespaced
name gets its URI's minted prefix, a bare name shortens to itself. -/
def shorten (q : QName) : SName := ⟨q.uri.map mintPfx, q.loc⟩

/-- Modelled from the spec: character data that is pure whitespace between
elements is trimmed; anything else is preserved verbatim as `#data`. -/
def normText : Option String → Option String
  | some s => if s.data.all Char.isWhitespace then none else some s
  | none => none

/-- Attach one decoded child under its tag: if the tag already has an entry
the child is appended to that entry's list (the repeated-tag rule), otherwise
a new single-child entry is appended. -/
def addTag (acc : List (SName × List Body)) (kv : SName × Body) :
    List (SName × List Body) :=
  if acc.any (fun p => p.1 = kv.1) then
    acc.map (fun p => if p.1 = kv.1 then (p.1, p.2 ++ [kv.2]) else p)
  else acc ++ [(kv.1, [kv.2])]

/-- Group a document-ordered list of decoded (tag, frame) pairs by tag,
keeping first-occurrence key order. -/
def groupTags (l : List (SName × Body)) : List (SName × List Body) :=
  l.foldl addTag []

/-- Emit the members of a grouped children table back as an ordered list of
(tag, frame) pairs: each key's occurrences are emitted consecutively. -/
def flattenTags (g : List (SName × List Body)) : List (SName × Body) :=
  g.flatMap (fun kv => kv.2.map (fun b => (kv.1, b)))

/-- Modelled from the spec (section 4.2): the decode pass.  For each element:
shorten the tag, shorten the attribute names, trim whitespace-only text, and
attach the recursively decoded children under their shortened tags with the
repeated-tag rule.  Returns the (shortened tag, frame) pair for the element. -/
def decodeElem : Xml → SName × Body
  | .elem tag attrs text children =>
    (shorten tag,
     .node (normText text)
       (attrs.map (fun a => (shorten a.1, a.2)))
       (groupTags (decodeList children)))
where
  decodeList : List Xml → List (SName × Body)
    | [] => []
    | x :: xs => decodeElem x :: decodeList xs

/-- All namespace URIs of a document in document order (tag first, then
attribute names, then children). -/
def urisX : Xml → List String
  | .elem tag attrs _ children =>
    (match tag.uri with
     | some u => [u]
     | none => []) ++
    attrs.flatMap (fun a =>
      match a.1.uri with
      | some u => [u]
      | none => []) ++
    urisXList children
where
  urisXList : List Xml → List String
    | [] => []
    | x :: xs => urisX x ++ urisXList xs

/-- The serialized context: prefix → URI pairs, one per namespace occurring
in the document. -/
abbrev Ctx := List (String × String)

/-- The context the decode pass accumulates for a document: every URI it
encountered, each under its minted prefix. -/
def ctxOf (x : Xml) : Ctx :=
  (urisX x).dedup.map (fun u => (mintPfx u, u))

/-- Modelled from the spec: `decode` — the body/context pair for a document:
the root's (shortened tag, frame) pair together with the accumulated
namespace table. -/
def decode (x : Xml) : (SName × Body) × Ctx :=
  (decodeElem x, ctxOf x)

/-- Resolve a prefix through a context. -/
def Ctx.resolve (c : Ctx) (p : String) : Option String :=
  (c.find? (fun e => e.1 == p)).map (·.2)

/-- The encoder's error: an unresolvable shortened key (spec section 4.3
`ResolutionError` — never silently emit the shortened string). -/
inductive CodecError where
  | resolutionError (p : String)

/-- Modelled from the spec: expand a shortened name through the context; an
unknown prefix is a `ResolutionError`, a bare name expands to itself. -/
def expandS (c : Ctx) (s : SName) : Except CodecError QName :=
  match s.pfx with
  | none => .ok ⟨none, s.loc⟩
  | some p =>
    match c.resolve p with
    | some u => .ok ⟨some u, s.loc⟩
    | none => .error (.resolutionError p)

/-- Expand every attribute name of a frame. -/
def encodeAttrs (c : Ctx) : List (SName × String) →
    Except CodecError (List (QName × String))
  | [] => .ok []
  | (k, v) :: rest =>
    match expandS c k with
    | .error e => .error e
    | .ok q =>
      match encodeAttrs c rest with
      | .error e => .error e
      | .ok qs => .ok ((q, v) :: qs)

mutual

/-- Modelled from the spec (section 4.3): encode one frame under its
shortened key — expand the tag and attribute names through the context, emit
`#data` as text, and emit each child occurrence in recorded order. -/
def encodeElem (c : Ctx) (k : SName) : Body → Except CodecError Xml
  | .node data attrs children =>
    match expandS c k with
    | .error e => .error e
    | .ok tag =>
      match encodeAttrs c attrs with
      | .error e => .error e
      | .ok qattrs =>
        match encodeGroups c children with
        | .error e => .error e
        | .ok kids => .ok (.elem tag qattrs data kids)

/-- Encode a grouped children table: each key's occurrences in order. -/
def encodeGroups (c : Ctx) : List (SName × List Body) →
    Except CodecError (List Xml)
  | [] => .ok []
  | (k, bs) :: rest =>
    match encodeList c k bs with
    | .error e => .error e
    | .ok xs =>
      match encodeGroups c rest with
      | .error e => .error e
      | .ok ys => .ok (xs ++ ys)

/-- Encode the occurrence list of one key. -/
def encodeList (c : Ctx) (k : SName) : List Body → Except CodecError (List Xml)
  | [] => .ok []
  | b :: bs =>
    match encodeElem c k b with
    | .error e => .error e
    | .ok x =>
      match encodeList c k bs with
      | .error e => .error e
      | .ok xs => .ok (x :: xs)

end

/-- Modelled from the spec: `encode` — re-emit a decoded body/context pair as
an XML document. -/
def encodeTop (kb : SName × Body) (c : Ctx) : Except CodecError Xml :=
  encodeElem c kb.1 kb.2

/-- The keys of a grouped children table. -/
def keysOf (g : List (SName × List Body)) : List SName := g.map (·.1)

/-- The invariant the decode pass maintains on grouped children tables: keys
are pairwise distinct and every occurrence list is nonempty (the repeated-tag
rule only ever creates a list at its first element and appends afterwards, so
it never builds an empty one). -/
def WFg (g : List (SName × List Body)) : Prop :=
  (keysOf g).Nodup ∧ ∀ kb ∈ g, kb.2 ≠ []

end Codec

/-! ## Theorems -/

/-! ### Sample records used by concrete statements -/

/-- A record built as `XJson(tag='root')`. -/
def rootRecord : XJsonState :=
  (XJson.init none (some "root") none none []).toOption.getD default

/-- A record built as `XJson(tag='alpha')`. -/
def stateAlpha : XJsonState :=
  (XJson.init none (some "alpha") none none []).toOption.getD default

/-- A record built as `XJson(tag='{urn:b}beta', text='hi', k='v')`. -/
def stateBeta : XJsonState :=
  (XJson.init none (some "{urn:b}beta") (some "hi") none [("k", "v")])
    |>.toOption.getD default

/-! ### Small preservation lemmas about the record state machine -/

lemma namespacesProp_ident (s : XJsonState) :
    (namespacesProp s).2.ident = s.ident := by
  unfold namespacesProp; split <;> rfl

lemma namespacesProp_root (s : XJsonState) :
    (namespacesProp s).2.root = s.root := by
  unfold namespacesProp; split <;> rfl

lemma namespacesProp_flag (s : XJsonState) :
    (namespacesProp s).2.updateNamespaces = false ∨
      (namespacesProp s).2 = s := by
  unfold namespacesProp; split
  · exact Or.inl rfl
  · exact Or.inr rfl

lemma namespacesProp_of_flag_false {s : XJsonState}
    (h : s.updateNamespaces = false) : namespacesProp s = (s.nsmap, s) := by
  unfold namespacesProp; rw [h]; simp

lemma tryExpandingTag_ident (s : XJsonState) (tag : String) :
    (tryExpandingTag s tag).ident = s.ident := by
  unfold tryExpandingTag; split
  · exact namespacesProp_ident s
  · rfl

lemma setAttributes_ident (kwargs : List (String × String)) (s : XJsonState) :
    (setAttributes s kwargs).ident = s.ident := by
  induction kwargs generalizing s with
  | nil => rfl
  | cons kv rest ih =>
    show (setAttributes _ rest).ident = _
    rw [ih]
    show (tryExpandingTag (tryExpandingTag s kv.1) kv.2).ident = s.ident
    rw [tryExpandingTag_ident, tryExpandingTag_ident]

lemma initFinish_ident (ident : String) (root0 : Elem) (tagArg : Option String)
    (text : Option String) (m0 : NsMap) (attributes : List (String × String)) :
    (initFinish ident root0 tagArg text m0 attributes).ident = ident := by
  unfold initFinish
  simp only
  rw [namespacesProp_ident]
  split
  · rfl
  · exact setAttributes_ident _ _

lemma init_ident (elem : Option Elem) (tag : Option String)
    (text : Option String) (namespaces : Option NsMap)
    (attributes : List (String × String)) (s : XJsonState)
    (h : XJson.init elem tag text namespaces attributes = .ok s) :
    s.ident = uuid5 NAMESPACE_DNS (XJSON_NAMESPACE ++ "xjson") := by
  unfold XJson.init at h
  match elem, tag with
  | some e, t =>
    simp only at h
    cases h
    exact initFinish_ident _ _ _ _ _ _
  | none, some t =>
    simp only at h
    cases h
    exact initFinish_ident _ _ _ _ _ _
  | none, none => exact absurd h (by simp)

/-! ### Claim C2 — registry deduplication -/

/-- C2: the claim says registering two records with the same identifier and
`replace_existing=False` leaves the registry holding exactly the first, and
that `replace_existing=True` makes the second overwrite.  The code's
`replace_existing=False` path returns before ever inserting, so after the two
calls the registry holds nothing at all under the identifier: the first half
of the claim is false on the code (the `True` half does hold). -/
theorem registry_false_path_never_inserts :
    (((Registry.empty.register ⟨"id-1", "first"⟩ false false).register
        ⟨"id-1", "second"⟩ false false).lookup "id-1" = none) ∧
    (((Registry.empty.register ⟨"id-1", "first"⟩ true false).register
        ⟨"id-1", "second"⟩ true false).lookup "id-1" =
      some ⟨"id-1", "second"⟩) := by
  exact ⟨rfl, rfl⟩

/-! ### Claim C9 — construction error -/

/-- C9: constructing a Record with neither a pre-parsed tree element nor a tag
raises a construction-time `ValueError` (the spec's `ConstructionError`), and
no record value is produced, whatever the remaining arguments are. -/
theorem init_without_elem_or_tag_errors (text : Option String)
    (namespaces : Option NsMap) (attributes : List (String × String)) :
    XJson.init none none text namespaces attributes =
      .error (.valueError
        ("You need to specify one of the tag or elem arguments to" ++
         "construct a XJson instance")) := rfl

/-! ### Claim C10 — the identifier is one shared constant -/

/-- C10: every successfully constructed record carries the same identifier —
`uuid5` of the fixed string `XJSON_NAMESPACE + 'xjson'` — independent of the
element, tag, text, namespaces and attributes supplied, so identifiers never
distinguish two records. -/
theorem ident_never_distinguishes (elem : Option Elem) (tag : Option String)
    (text : Option String) (namespaces : Option NsMap)
    (attributes : List (String × String)) (elem' : Option Elem)
    (tag' : Option String) (text' : Option String)
    (namespaces' : Option NsMap) (attributes' : List (String × String))
    (s s' : XJsonState)
    (h : XJson.init elem tag text namespaces attributes = .ok s)
    (h' : XJson.init elem' tag' text' namespaces' attributes' = .ok s') :
    s.ident = s'.ident := by
  rw [init_ident _ _ _ _ _ _ h, init_ident _ _ _ _ _ _ h']

/-- Witness for C10: two records built from unrelated arguments share their
identifier. -/
theorem ident_never_distinguishes_witness : stateAlpha.ident = stateBeta.ident :=
  ident_never_distinguishes none (some "alpha") none none []
    none (some "{urn:b}beta") (some "hi") none [("k", "v")]
    stateAlpha stateBeta rfl rfl

/-! ### Claim C4 — `str(record)` -/

/-- C4: the claim says `str(record)` renders JSON-encoded text whose decoded
top-level key set is the body's keys plus `@context`.  `XJson.__str__`
actually renders the debug template `XJson record <ident>, tagged with <tag>`:
evaluated on a concrete record the output is that template, does not begin
with a JSON object brace, and does not even contain the substring `@context`,
so no JSON decode of it can expose an `@context` key.  (The repository's own
`test_str_roundtrip` expects the JSON behaviour, so the code contradicts its
test.) -/
theorem str_renders_debug_template_not_json :
    (strXJson rootRecord).1 =
      ("XJson record uuid5(6ba7b810-9dad-11d1-80b4-00c04fd430c8," ++
       "{http://geoanalytics.csiro.au/xjson/0.0.1}xjson), tagged with root") ∧
    listStarts (strXJson rootRecord).1.data "\x7b".data = false ∧
    strContains (strXJson rootRecord).1 "@context" = false := by
  refine ⟨by decide, by decide, by decide⟩

/-! ### Claim C5 — `yaml()` -/

/-- C5: the claim says `yaml()` is a pure formatting operation returning a
string, with repeated calls succeeding.  The call
`yamlify(self.root, self.namespaces, indent_width=indent_width)` passes a
second positional argument to a function declared `yamlify(xjson,
indent_width=2)` while also passing `indent_width` by keyword, so Python
raises `TypeError` on every call: `yaml()` never returns a string for any
record or indent width. -/
theorem yaml_always_raises_type_error (s : XJsonState) (indentWidth : Nat) :
    (yamlMethod s indentWidth).1 =
      .error (.typeError
        "yamlify() got multiple values for argument indent_width") := rfl

/-! ### Claim C3 — namespaced attribute round-trip -/

/-- C3: the claim says that after `set_attributes` stores a value under a
namespace-qualified key, `get_attribute` returns it under the short and the
expanded form alike, and the namespace becomes registered in the record's
map.  In the source `_try_expanding_tag` rebinds only a method-local
variable, so the raw key is stored: on a concrete record, storing under
`{urn:example}a` is retrievable only under that exact string — the short form
`ns-urn:example:a` (the prefix the map itself would mint for that URI)
returns nothing — and `urn:example` is never registered in the map. -/
theorem set_attribute_not_resolved_nor_registered :
    (getAttribute (setAttributes rootRecord [("{urn:example}a", "v")])
        "{urn:example}a").1 = some "v" ∧
    (getAttribute (setAttributes rootRecord [("{urn:example}a", "v")])
        (mintPfx "urn:example" ++ ":a")).1 = none ∧
    (setAttributes rootRecord [("{urn:example}a", "v")]).nsmap.lookupUri
        "urn:example" = none := by
  refine ⟨by decide, by decide, by decide⟩

/-! ### Namespace-map coverage lemmas -/

lemma find?_append_of_isSome {α : Type} (p : α → Bool) (l1 l2 : List α)
    (h : (l1.find? p).isSome) : (l1 ++ l2).find? p = l1.find? p := by
  rw [List.find?_append]
  cases hf : l1.find? p with
  | some a => rfl
  | none => rw [hf] at h; simp at h

lemma find?_append_none {α : Type} (p : α → Bool) (l1 l2 : List α)
    (h : l1.find? p = none) : (l1 ++ l2).find? p = l2.find? p := by
  rw [List.find?_append, h]
  cases l2.find? p <;> rfl

lemma lookupUri_addFromUri_preserve (m : NsMap) (u v : String)
    (h : (m.lookupUri u).isSome) : ((m.addFromUri v).lookupUri u).isSome := by
  unfold NsMap.addFromUri
  cases hv : m.lookupUri v with
  | some p => exact h
  | none =>
    unfold NsMap.lookupUri at h ⊢
    rw [find?_append_of_isSome _ _ _ (by simpa using h)]
    exact h

lemma lookupUri_addFromUri_self (m : NsMap) (u : String) :
    ((m.addFromUri u).lookupUri u).isSome := by
  unfold NsMap.addFromUri
  cases hv : m.lookupUri u with
  | some p => simp [hv]
  | none =>
    have hfind : m.find? (fun e => e.1 == u) = none := by
      unfold NsMap.lookupUri at hv
      exact Option.map_eq_none'.mp hv
    unfold NsMap.lookupUri
    rw [find?_append_none _ _ _ hfind]
    simp [List.find?]

lemma lookupUri_foldl_preserve (l : List String) (m : NsMap) (u : String)
    (h : (m.lookupUri u).isSome) :
    ((l.foldl NsMap.addFromUri m).lookupUri u).isSome := by
  induction l generalizing m with
  | nil => exact h
  | cons v vs ih =>
    show ((vs.foldl NsMap.addFromUri (m.addFromUri v)).lookupUri u).isSome
    exact ih _ (lookupUri_addFromUri_preserve _ _ _ h)

lemma lookupUri_foldl_mem (l : List String) (m : NsMap) (u : String)
    (h : u ∈ l) : ((l.foldl NsMap.addFromUri m).lookupUri u).isSome := by
  induction l generalizing m with
  | nil => cases h
  | cons v vs ih =>
    show ((vs.foldl NsMap.addFromUri (m.addFromUri v)).lookupUri u).isSome
    rcases List.mem_cons.mp h with h | h
    · subst h
      exact lookupUri_foldl_preserve _ _ _ (lookupUri_addFromUri_self _ _)
    · exact ih (m.addFromUri v) h

lemma harvest_covers (m : NsMap) (root : Elem) (u : String)
    (h : u ∈ root.urisOf) :
    ((harvestNamespaces m root).lookupUri u).isSome :=
  lookupUri_foldl_mem _ _ _ h

lemma harvest_preserve (m : NsMap) (root : Elem) (u : String)
    (h : (m.lookupUri u).isSome) :
    ((harvestNamespaces m root).lookupUri u).isSome :=
  lookupUri_foldl_preserve _ _ _ h

lemma lookupUri_addFromTag_preserve (m : NsMap) (tag u : String)
    (h : (m.lookupUri u).isSome) :
    ((m.addFromTag tag).lookupUri u).isSome := by
  unfold NsMap.addFromTag
  cases (splitTag tag).1 with
  | some v => exact lookupUri_addFromUri_preserve _ _ _ h
  | none => exact h

/-! ### Claim C6 — the namespace cache and `add_subelement` -/

/-- The parent state `add_subelement` returns, written out: the update flag
has already been consumed again (by the `namespaces` property access inside
`_wrap_element`), after a harvest of the tree that already contains the new
child, followed by the harvest of the child subtree and the registration of
the child's tag performed by the wrapped view's construction on the shared
map. -/
lemma addSubelement_fst_eq (s : XJsonState) (tag : String)
    (text : Option String) (attrs : List (String × String)) :
    (addSubelement s tag text attrs).1 =
      { ident := (tryExpandingTag s tag).ident,
        root := (tryExpandingTag s tag).root.appendChild
          (buildSubChild tag text attrs),
        nsmap := ((harvestNamespaces
            (harvestNamespaces (tryExpandingTag s tag).nsmap
              ((tryExpandingTag s tag).root.appendChild
                (buildSubChild tag text attrs)))
            (buildSubChild tag text attrs)).addFromTag
          (buildSubChild tag text attrs).tag),
        updateNamespaces := false,
        tagName := (tryExpandingTag s tag).tagName } := rfl

/-- C6 counterexample: the claim says that after `add_subelement` returns,
the next access of the `namespaces` property re-harvests (i.e. the
invalidation flag is still set).  On a concrete record the flag is already
`false` when `add_subelement` returns — `_wrap_element`'s property access
consumed the invalidation before returning.  (The flag is also already
`false` straight after construction, because `__init__` itself accesses the
property, so the harvest is not deferred to the first external access
either.) -/
theorem add_subelement_returns_with_flag_clear :
    (addSubelement rootRecord "{urn:c}child" none []).1.updateNamespaces
        = false ∧
    rootRecord.updateNamespaces = false := by
  exact ⟨by decide, by decide⟩

/-- C6 amended: the `namespaces` property harvests exactly when the update
flag is set and then caches; `add_subelement` does set the flag, but then
wraps the new child, which re-reads the property, so the re-harvest — over
the tree that already contains the new child — happens before
`add_subelement` returns.  The returned parent state therefore has a clear
flag, its next `namespaces` access is a cache hit that re-harvests nothing,
and every namespace URI of the (new-child-containing) tree is already
registered in its map. -/
theorem add_subelement_harvests_before_returning (s : XJsonState)
    (tag : String) (text : Option String) (attrs : List (String × String)) :
    (addSubelement s tag text attrs).1.updateNamespaces = false ∧
    namespacesProp (addSubelement s tag text attrs).1 =
      ((addSubelement s tag text attrs).1.nsmap,
       (addSubelement s tag text attrs).1) ∧
    ∀ u, u ∈ (addSubelement s tag text attrs).1.root.urisOf →
      ((addSubelement s tag text attrs).1.nsmap.lookupUri u).isSome = true := by
  have hflag : (addSubelement s tag text attrs).1.updateNamespaces = false := by
    rw [addSubelement_fst_eq]
  refine ⟨hflag, namespacesProp_of_flag_false hflag, ?_⟩
  intro u hu
  rw [addSubelement_fst_eq] at hu ⊢
  exact lookupUri_addFromTag_preserve _ _ _
    (harvest_preserve _ _ _ (harvest_covers _ _ _ hu))

/-! ### Query lemmas (claims C7 and C8) -/

lemma namespacesProp_snd_flag (s : XJsonState) :
    (namespacesProp s).2.updateNamespaces = false := by
  unfold namespacesProp
  split
  · rfl
  · next h => simpa using h

lemma namespacesProp_map_eq (s : XJsonState) :
    (namespacesProp s).1 = (namespacesProp s).2.nsmap := by
  unfold namespacesProp; split <;> rfl

lemma addFromUri_append (m : NsMap) (u : String) :
    ∃ t, m.addFromUri u = m ++ t := by
  unfold NsMap.addFromUri
  cases m.lookupUri u with
  | some p => exact ⟨[], (List.append_nil m).symm⟩
  | none => exact ⟨[(u, mintPfx u)], rfl⟩

lemma foldl_addFromUri_append (l : List String) (m : NsMap) :
    ∃ t, l.foldl NsMap.addFromUri m = m ++ t := by
  induction l generalizing m with
  | nil => exact ⟨[], (List.append_nil m).symm⟩
  | cons v vs ih =>
    obtain ⟨t1, h1⟩ := addFromUri_append m v
    obtain ⟨t2, h2⟩ := ih (m.addFromUri v)
    refine ⟨t1 ++ t2, ?_⟩
    show vs.foldl NsMap.addFromUri (m.addFromUri v) = _
    rw [h2, h1, List.append_assoc]

lemma harvest_append (m : NsMap) (root : Elem) :
    ∃ t, harvestNamespaces m root = m ++ t :=
  foldl_addFromUri_append _ _

lemma addFromTag_append (m : NsMap) (tag : String) :
    ∃ t, m.addFromTag tag = m ++ t := by
  unfold NsMap.addFromTag
  cases (splitTag tag).1 with
  | some u => exact addFromUri_append _ _
  | none => exact ⟨[], (List.append_nil m).symm⟩

lemma namespacesProp_map_append (s : XJsonState) :
    ∃ t, (namespacesProp s).1 = s.nsmap ++ t := by
  unfold namespacesProp
  split
  · exact harvest_append _ _
  · exact ⟨[], (List.append_nil _).symm⟩

lemma wrapElement_fst_root (s : XJsonState) (e : Elem) :
    (wrapElement s e).1.root = (namespacesProp s).2.root := rfl

lemma wrapElement_snd_root (s : XJsonState) (e : Elem) :
    (wrapElement s e).2.root = e := rfl

lemma wrapElement_fst_flag (s : XJsonState) (e : Elem) :
    (wrapElement s e).1.updateNamespaces = false :=
  namespacesProp_snd_flag s

lemma wrapElement_fst_map (s : XJsonState) (e : Elem) :
    (wrapElement s e).1.nsmap =
      (harvestNamespaces (namespacesProp s).1 e).addFromTag e.tag := rfl

lemma wrapElement_fst_map_append (s : XJsonState) (e : Elem) :
    ∃ t, (wrapElement s e).1.nsmap = (namespacesProp s).1 ++ t := by
  rw [wrapElement_fst_map]
  obtain ⟨t1, h1⟩ := harvest_append (namespacesProp s).1 e
  obtain ⟨t2, h2⟩ :=
    addFromTag_append (harvestNamespaces (namespacesProp s).1 e) e.tag
  exact ⟨t1 ++ t2, by rw [h2, h1, List.append_assoc]⟩

lemma wrapAll_fst_root (es : List Elem) (s : XJsonState) :
    (wrapAll s es).1.root = s.root := by
  induction es generalizing s with
  | nil => rfl
  | cons e es ih =>
    show (wrapAll (wrapElement s e).1 es).1.root = s.root
    rw [ih, wrapElement_fst_root, namespacesProp_root]

lemma wrapAll_fst_flag (es : List Elem) (s : XJsonState)
    (h : s.updateNamespaces = false) :
    (wrapAll s es).1.updateNamespaces = false := by
  induction es generalizing s with
  | nil => exact h
  | cons e es ih =>
    show (wrapAll (wrapElement s e).1 es).1.updateNamespaces = false
    exact ih _ (wrapElement_fst_flag s e)

lemma wrapAll_fst_map_append (es : List Elem) (s : XJsonState) :
    ∃ t, (wrapAll s es).1.nsmap = s.nsmap ++ t := by
  induction es generalizing s with
  | nil => exact ⟨[], (List.append_nil _).symm⟩
  | cons e es ih =>
    show ∃ t, (wrapAll (wrapElement s e).1 es).1.nsmap = s.nsmap ++ t
    obtain ⟨t2, h2⟩ := ih (wrapElement s e).1
    obtain ⟨t1, h1⟩ := wrapElement_fst_map_append s e
    obtain ⟨t0, h0⟩ := namespacesProp_map_append s
    refine ⟨t0 ++ t1 ++ t2, ?_⟩
    rw [h2, h1, h0]
    simp [List.append_assoc]

lemma wrapAll_roots (es : List Elem) (s : XJsonState) :
    (wrapAll s es).2.map (fun c => c.root) = es := by
  induction es generalizing s with
  | nil => rfl
  | cons e es ih =>
    show ((wrapElement s e).2 :: (wrapAll (wrapElement s e).1 es).2).map _
        = e :: es
    rw [List.map_cons, wrapElement_snd_root, ih]

lemma resolvePfx_append_of_some (m t : NsMap) (p u : String)
    (h : m.resolvePfx p = some u) : (m ++ t).resolvePfx p = some u := by
  unfold NsMap.resolvePfx at h ⊢
  cases hf : m.find? (fun e => e.2 == p) with
  | none => rw [hf] at h; simp at h
  | some a =>
    rw [find?_append_of_isSome _ _ _ (by rw [hf]; rfl)]
    exact h

lemma resolveQuery_append (m t : NsMap) (q : PathQuery) (full : String)
    (h : resolveQuery m q = .ok full) : resolveQuery (m ++ t) q = .ok full := by
  obtain ⟨pfx, localName⟩ := q
  cases pfx with
  | none => exact h
  | some p =>
    simp only [resolveQuery] at h ⊢
    cases hr : NsMap.resolvePfx m p with
    | none => rw [hr] at h; cases h
    | some u =>
      rw [hr] at h
      rw [resolvePfx_append_of_some _ _ _ _ hr]
      exact h

lemma findallRaw_append (root : Elem) (q : PathQuery) (m t : NsMap)
    (elems : List Elem) (h : findallRaw root q m = .ok elems) :
    findallRaw root q (m ++ t) = .ok elems := by
  unfold findallRaw at h ⊢
  cases hr : resolveQuery m q with
  | error e => rw [hr] at h; cases h
  | ok full =>
    rw [hr] at h
    rw [resolveQuery_append _ _ _ _ hr]
    exact h

lemma getItem_fst_spec (s : XJsonState) (q : PathQuery) :
    (getItem s q).1 = (rawMatches s q).map specUnwrap := by
  unfold getItem rawMatches
  cases hfr : findallRaw (namespacesProp s).2.root q (namespacesProp s).1 with
  | error err => rfl
  | ok elems =>
    show (match (wrapAll (namespacesProp s).2 elems).2 with
          | [] => (Except.ok QueryResult.noMatch : Except PyError QueryResult)
          | [c] => Except.ok (QueryResult.one c.root)
          | c1 :: c2 :: cs =>
            Except.ok (QueryResult.many ((c1 :: c2 :: cs).map (fun x => x.root))))
        = Except.map specUnwrap (Except.ok elems)
    have hroots := wrapAll_roots elems (namespacesProp s).2
    cases hw : (wrapAll (namespacesProp s).2 elems).2 with
    | nil =>
      rw [hw] at hroots
      simp only [List.map_nil] at hroots
      subst hroots
      rfl
    | cons c cs =>
      cases cs with
      | nil =>
        rw [hw] at hroots
        simp only [List.map_cons, List.map_nil] at hroots
        subst hroots
        rfl
      | cons c2 cs2 =>
        rw [hw] at hroots
        subst hroots
        rfl

lemma rawMatches_getItem_state (s : XJsonState) (q : PathQuery) :
    rawMatches ((getItem s q).2) q = rawMatches s q := by
  unfold getItem
  cases hfr : findallRaw (namespacesProp s).2.root q (namespacesProp s).1 with
  | error err =>
    show rawMatches (namespacesProp s).2 q = rawMatches s q
    unfold rawMatches
    rw [namespacesProp_of_flag_false (namespacesProp_snd_flag s)]
    rw [namespacesProp_map_eq]
  | ok elems =>
    show rawMatches (wrapAll (namespacesProp s).2 elems).1 q = rawMatches s q
    unfold rawMatches
    have hflag2 : (wrapAll (namespacesProp s).2 elems).1.updateNamespaces
        = false :=
      wrapAll_fst_flag _ _ (namespacesProp_snd_flag s)
    rw [namespacesProp_of_flag_false hflag2]
    show findallRaw (wrapAll (namespacesProp s).2 elems).1.root q
        (wrapAll (namespacesProp s).2 elems).1.nsmap = _
    rw [wrapAll_fst_root]
    obtain ⟨t, ht⟩ := wrapAll_fst_map_append elems (namespacesProp s).2
    rw [ht, ← namespacesProp_map_eq]
    rw [hfr, findallRaw_append _ _ _ _ _ hfr]

/-! ### Claim C7 — query idempotence -/

/-- C7: for a fixed record and a fixed path expression, evaluating
`record[path]` twice — the second time against the state the first
evaluation left behind — produces equal results (in particular of equal
length and content), even though the first evaluation may have harvested
and grown the shared namespace map while wrapping its results. -/
theorem query_idempotent (s : XJsonState) (q : PathQuery) :
    (getItem ((getItem s q).2) q).1 = (getItem s q).1 := by
  rw [getItem_fst_spec, getItem_fst_spec, rawMatches_getItem_state]

/-! ### Claim C8 — the unwrap rule -/

/-- C8: `record[path]` returns `None` when the query yields zero matches, the
single match unwrapped when it yields exactly one, and the ordered sequence
of all matches otherwise; on a resolution error the lxml error propagates
instead. -/
theorem getitem_unwrap_contract (s : XJsonState) (q : PathQuery) :
    (getItem s q).1 = (rawMatches s q).map specUnwrap :=
  getItem_fst_spec s q

/-- Witness for the amended C6: on a concrete record, after
`add_subelement('{urn:c}child')` the flag is clear and `urn:c` is already
registered. -/
theorem add_subelement_harvests_before_returning_witness :
    (addSubelement rootRecord "{urn:c}child" none []).1.updateNamespaces
        = false ∧
    ((addSubelement rootRecord "{urn:c}child" none []).1.nsmap.lookupUri
        "urn:c").isSome = true :=
  ⟨(add_subelement_harvests_before_returning rootRecord "{urn:c}child"
      none []).1,
   (add_subelement_harvests_before_returning rootRecord "{urn:c}child"
      none []).2.2 "urn:c" (by decide)⟩

/-! ### The codec round-trip (claim C1) -/

namespace Codec

lemma mem_keysOf {g : List (SName × List Body)} {p : SName × List Body}
    (hp : p ∈ g) : p.1 ∈ keysOf g :=
  List.mem_map_of_mem _ hp

lemma addTag_fresh (acc : List (SName × List Body)) (kv : SName × Body)
    (h : kv.1 ∉ keysOf acc) : addTag acc kv = acc ++ [(kv.1, [kv.2])] := by
  unfold addTag
  rw [if_neg]
  intro hany
  rw [List.any_eq_true] at hany
  obtain ⟨p, hp, he⟩ := hany
  rw [decide_eq_true_eq] at he
  exact h (he ▸ mem_keysOf hp)

lemma addTag_last (acc : List (SName × List Body)) (k : SName)
    (l0 : List Body) (b : Body) (h : k ∉ keysOf acc) :
    addTag (acc ++ [(k, l0)]) (k, b) = acc ++ [(k, l0 ++ [b])] := by
  unfold addTag
  rw [if_pos]
  · rw [List.map_append]
    congr 1
    · have hcongr : ∀ p ∈ acc,
          (if p.1 = (k, b).1 then (p.1, p.2 ++ [(k, b).2]) else p) = p := by
        intro p hp
        rw [if_neg]
        intro he
        have he' : p.1 = k := he
        exact h (he' ▸ mem_keysOf hp)
      calc acc.map (fun p =>
              if p.1 = (k, b).1 then (p.1, p.2 ++ [(k, b).2]) else p)
          = acc.map id := List.map_congr_left hcongr
        _ = acc := List.map_id acc
    · simp
  · rw [List.any_eq_true]
    exact ⟨(k, l0), by simp⟩

lemma foldl_addTag_run_last (bs : List Body)
    (acc : List (SName × List Body)) (k : SName) (l0 : List Body)
    (h : k ∉ keysOf acc) :
    List.foldl addTag (acc ++ [(k, l0)]) (bs.map (fun b => (k, b)))
      = acc ++ [(k, l0 ++ bs)] := by
  induction bs generalizing l0 with
  | nil => simp
  | cons b bs' ih =>
    rw [List.map_cons, List.foldl_cons, addTag_last acc k l0 b h,
      ih (l0 ++ [b])]
    simp

lemma foldl_addTag_run (bs : List Body) (acc : List (SName × List Body))
    (k : SName) (b0 : Body) (h : k ∉ keysOf acc) :
    List.foldl addTag acc ((b0 :: bs).map (fun b => (k, b)))
      = acc ++ [(k, b0 :: bs)] := by
  rw [List.map_cons, List.foldl_cons, addTag_fresh acc (k, b0) h,
    foldl_addTag_run_last bs acc k [b0] h]
  rfl

lemma foldl_addTag_flatten (g : List (SName × List Body)) :
    ∀ acc, WFg g → (∀ k ∈ keysOf g, k ∉ keysOf acc) →
    List.foldl addTag acc (flattenTags g) = acc ++ g := by
  induction g with
  | nil => intro acc _ _; simp [flattenTags]
  | cons kb g' ih =>
    intro acc hwf hdisj
    obtain ⟨k, bs⟩ := kb
    have hflat : flattenTags ((k, bs) :: g')
        = bs.map (fun b => (k, b)) ++ flattenTags g' := rfl
    rw [hflat, List.foldl_append]
    have hk : k ∉ keysOf acc := hdisj k (by simp [keysOf])
    have hbs : bs ≠ [] := hwf.2 (k, bs) (List.mem_cons_self _ _)
    obtain ⟨b0, bs', rfl⟩ : ∃ b0 bs', bs = b0 :: bs' := by
      cases bs with
      | nil => exact absurd rfl hbs
      | cons b0 bs' => exact ⟨b0, bs', rfl⟩
    rw [foldl_addTag_run bs' acc k b0 hk]
    have hnodup := hwf.1
    rw [keysOf, List.map_cons, List.nodup_cons] at hnodup
    have hwf' : WFg g' :=
      ⟨hnodup.2, fun kb hkb => hwf.2 kb (List.mem_cons_of_mem _ hkb)⟩
    have hdisj' : ∀ k' ∈ keysOf g',
        k' ∉ keysOf (acc ++ [(k, b0 :: bs')]) := by
      intro k' hk' hmem
      rw [keysOf, List.map_append] at hmem
      rcases List.mem_append.mp hmem with hmem | hmem
      · exact hdisj k' (List.mem_cons_of_mem _ hk') hmem
      · simp at hmem
        exact hnodup.1 (hmem ▸ hk')
    rw [ih (acc ++ [(k, b0 :: bs')]) hwf' hdisj']
    simp

lemma groupTags_flattenTags {g : List (SName × List Body)} (hwf : WFg g) :
    groupTags (flattenTags g) = g := by
  have := foldl_addTag_flatten g [] hwf (by intro k _; simp [keysOf])
  simpa [groupTags] using this

lemma WFg_addTag (acc : List (SName × List Body)) (kv : SName × Body)
    (h : WFg acc) : WFg (addTag acc kv) := by
  unfold addTag
  split
  · constructor
    · have hkeys : keysOf (acc.map fun p =>
          if p.1 = kv.1 then (p.1, p.2 ++ [kv.2]) else p) = keysOf acc := by
        unfold keysOf
        rw [List.map_map]
        refine List.map_congr_left ?_
        intro p _
        show (if p.1 = kv.1 then (p.1, p.2 ++ [kv.2]) else p).1 = p.1
        split <;> rfl
      rw [hkeys]
      exact h.1
    · intro kb hkb
      obtain ⟨p, hp, rfl⟩ := List.mem_map.mp hkb
      by_cases hpk : p.1 = kv.1
      · simp [hpk]
      · simp only [hpk, if_false]
        exact h.2 p hp
  · next hany =>
    constructor
    · rw [keysOf, List.map_append, List.nodup_append]
      refine ⟨h.1, List.nodup_singleton _, ?_⟩
      intro a ha hb
      simp only [List.map_cons, List.map_nil, List.mem_singleton] at hb
      subst hb
      apply hany
      rw [List.any_eq_true]
      obtain ⟨p, hp, he⟩ := List.mem_map.mp ha
      exact ⟨p, hp, by rw [decide_eq_true_eq]; exact he⟩
    · intro kb hkb
      rcases List.mem_append.mp hkb with hkb | hkb
      · exact h.2 _ hkb
      · simp only [List.mem_singleton] at hkb
        subst hkb
        simp

lemma WFg_foldl_addTag (l : List (SName × Body)) :
    ∀ acc, WFg acc → WFg (List.foldl addTag acc l) := by
  induction l with
  | nil => intro acc h; exact h
  | cons kv l' ih =>
    intro acc h
    rw [List.foldl_cons]
    exact ih _ (WFg_addTag acc kv h)

lemma WFg_groupTags (l : List (SName × Body)) : WFg (groupTags l) :=
  WFg_foldl_addTag l [] ⟨List.nodup_nil, by simp⟩

lemma addTag_mem_inv (acc : List (SName × List Body)) (kv : SName × Body)
    (k : SName) (bs : List Body) (b : Body)
    (hmem : (k, bs) ∈ addTag acc kv) (hb : b ∈ bs) :
    (k, b) = kv ∨ ∃ bs0, (k, bs0) ∈ acc ∧ b ∈ bs0 := by
  unfold addTag at hmem
  split at hmem
  · obtain ⟨p, hp, he⟩ := List.mem_map.mp hmem
    by_cases hpk : p.1 = kv.1
    · rw [if_pos hpk, Prod.mk.injEq] at he
      obtain ⟨he1, he2⟩ := he
      rcases List.mem_append.mp (he2 ▸ hb) with hb' | hb'
      · right
        refine ⟨p.2, ?_, hb'⟩
        rw [← he1]
        exact hp
      · left
        simp only [List.mem_singleton] at hb'
        subst hb'
        rw [← he1, hpk]
    · rw [if_neg hpk] at he
      right
      exact ⟨bs, he ▸ hp, hb⟩
  · rcases List.mem_append.mp hmem with hmem | hmem
    · right; exact ⟨bs, hmem, hb⟩
    · left
      simp only [List.mem_singleton, Prod.mk.injEq] at hmem
      obtain ⟨h1, h2⟩ := hmem
      subst h2
      simp only [List.mem_singleton] at hb
      subst hb
      rw [h1]

lemma mem_of_mem_foldl_addTag (l : List (SName × Body)) :
    ∀ (acc : List (SName × List Body)) (k : SName) (bs : List Body)
      (b : Body), (k, bs) ∈ List.foldl addTag acc l → b ∈ bs →
      (k, b) ∈ l ∨ ∃ bs0, (k, bs0) ∈ acc ∧ b ∈ bs0 := by
  induction l with
  | nil =>
    intro acc k bs b hmem hb
    right
    exact ⟨bs, hmem, hb⟩
  | cons kv l' ih =>
    intro acc k bs b hmem hb
    rw [List.foldl_cons] at hmem
    rcases ih (addTag acc kv) k bs b hmem hb with h | ⟨bs0, hbs0, hb0⟩
    · left; exact List.mem_cons_of_mem _ h
    · rcases addTag_mem_inv acc kv k bs0 b hbs0 hb0 with h | h
      · left; rw [h]; exact List.mem_cons_self _ _
      · right; exact h

lemma mem_of_groupTags {l : List (SName × Body)} {k : SName}
    {bs : List Body} (h : (k, bs) ∈ groupTags l) {b : Body} (hb : b ∈ bs) :
    (k, b) ∈ l := by
  rcases mem_of_mem_foldl_addTag l [] k bs b h hb with h | ⟨bs0, h0, _⟩
  · exact h
  · exact absurd h0 (List.not_mem_nil _)

lemma addTag_mem_self (acc : List (SName × List Body)) (kv : SName × Body) :
    ∃ bs, (kv.1, bs) ∈ addTag acc kv ∧ kv.2 ∈ bs := by
  unfold addTag
  split
  · next hany =>
    rw [List.any_eq_true] at hany
    obtain ⟨p, hp, he⟩ := hany
    rw [decide_eq_true_eq] at he
    refine ⟨p.2 ++ [kv.2], ?_, by simp⟩
    have hfp : (fun p => if p.1 = kv.1 then (p.1, p.2 ++ [kv.2]) else p) p
        = (kv.1, p.2 ++ [kv.2]) := by
      show (if p.1 = kv.1 then (p.1, p.2 ++ [kv.2]) else p)
          = (kv.1, p.2 ++ [kv.2])
      rw [if_pos he, he]
    exact hfp ▸ List.mem_map_of_mem _ hp
  · exact ⟨[kv.2], by simp, by simp⟩

lemma addTag_mem_of_mem (acc : List (SName × List Body)) (kv : SName × Body)
    (k : SName) (bs : List Body) (b : Body)
    (hmem : (k, bs) ∈ acc) (hb : b ∈ bs) :
    ∃ bs1, (k, bs1) ∈ addTag acc kv ∧ b ∈ bs1 := by
  unfold addTag
  split
  · by_cases hk : k = kv.1
    · refine ⟨bs ++ [kv.2], ?_, List.mem_append_left _ hb⟩
      have hfp : (fun p => if p.1 = kv.1 then (p.1, p.2 ++ [kv.2]) else p)
          (k, bs) = (k, bs ++ [kv.2]) := by simp [hk]
      exact hfp ▸ List.mem_map_of_mem _ hmem
    · refine ⟨bs, ?_, hb⟩
      have hfp : (fun p => if p.1 = kv.1 then (p.1, p.2 ++ [kv.2]) else p)
          (k, bs) = (k, bs) := by simp [hk]
      exact hfp ▸ List.mem_map_of_mem _ hmem
  · exact ⟨bs, List.mem_append_left _ hmem, hb⟩

lemma mem_foldl_addTag_of_mem (l : List (SName × Body)) :
    ∀ (acc : List (SName × List Body)) (k : SName) (b : Body),
      ((k, b) ∈ l ∨ ∃ bs0, (k, bs0) ∈ acc ∧ b ∈ bs0) →
      ∃ bs, (k, bs) ∈ List.foldl addTag acc l ∧ b ∈ bs := by
  induction l with
  | nil =>
    intro acc k b h
    rcases h with h | h
    · exact absurd h (List.not_mem_nil _)
    · exact h
  | cons kv l' ih =>
    intro acc k b h
    rw [List.foldl_cons]
    apply ih (addTag acc kv) k b
    rcases h with h | ⟨bs0, hbs0, hb0⟩
    · rcases List.mem_cons.mp h with h | h
      · right
        obtain ⟨bs, hmem, hin⟩ := addTag_mem_self acc kv
        rw [← h] at hmem hin ⊢
        exact ⟨bs, hmem, hin⟩
      · left; exact h
    · right; exact addTag_mem_of_mem acc kv k bs0 b hbs0 hb0

lemma groupTags_mem_of_mem {l : List (SName × Body)} {k : SName} {b : Body}
    (h : (k, b) ∈ l) : ∃ bs, (k, bs) ∈ groupTags l ∧ b ∈ bs :=
  mem_foldl_addTag_of_mem l [] k b (Or.inl h)

lemma mintPfx_inj {a b : String} (h : mintPfx a = mintPfx b) : a = b := by
  unfold mintPfx at h
  have h2 : "ns-".data ++ a.data = "ns-".data ++ b.data :=
    congrArg String.data h
  have h3 : a.data = b.data := List.append_cancel_left h2
  cases a; cases b
  exact congrArg String.mk h3

lemma find?_map_mint (l : List String) (u : String) (hnd : l.Nodup)
    (hmem : u ∈ l) :
    (l.map (fun v => (mintPfx v, v))).find? (fun e => e.1 == mintPfx u)
      = some (mintPfx u, u) := by
  induction l with
  | nil => cases hmem
  | cons v vs ih =>
    rw [List.map_cons]
    rcases List.mem_cons.mp hmem with h | h
    · subst h
      rw [List.find?_cons_of_pos]
      simp
    · have hne : v ≠ u := by
        rintro rfl
        exact (List.nodup_cons.mp hnd).1 h
      rw [List.find?_cons_of_neg]
      · exact ih (List.nodup_cons.mp hnd).2 h
      · simp only [decide_eq_true_eq, beq_iff_eq]
        intro he
        exact hne (mintPfx_inj he)

lemma ctxOf_resolve (x : Xml) (u : String) (hu : u ∈ urisX x) :
    Ctx.resolve (ctxOf x) (mintPfx u) = some u := by
  unfold ctxOf Ctx.resolve
  rw [find?_map_mint _ u (List.nodup_dedup _) (List.mem_dedup.mpr hu)]
  rfl

lemma ctxOf_mem (x : Xml) (e : String × String) :
    e ∈ ctxOf x ↔ ∃ u, u ∈ urisX x ∧ e = (mintPfx u, u) := by
  unfold ctxOf
  rw [List.mem_map]
  constructor
  · rintro ⟨u, hu, rfl⟩
    exact ⟨u, List.mem_dedup.mp hu, rfl⟩
  · rintro ⟨u, hu, rfl⟩
    exact ⟨u, List.mem_dedup.mpr hu, rfl⟩

lemma decodeList_eq_map (l : List Xml) :
    decodeElem.decodeList l = l.map decodeElem := by
  induction l with
  | nil => rfl
  | cons x xs ih =>
    rw [List.map_cons, ← ih]
    rfl

lemma decodeList_append (l1 l2 : List Xml) :
    decodeElem.decodeList (l1 ++ l2)
      = decodeElem.decodeList l1 ++ decodeElem.decodeList l2 := by
  rw [decodeList_eq_map, decodeList_eq_map, decodeList_eq_map,
    List.map_append]

lemma normText_idem (t : Option String) :
    normText (normText t) = normText t := by
  cases t with
  | none => rfl
  | some s => by_cases h : s.data.all Char.isWhitespace <;> simp [normText, h]

lemma expandS_shorten (c : Ctx) (q : QName)
    (h : ∀ u, q.uri = some u → Ctx.resolve c (mintPfx u) = some u) :
    expandS c (shorten q) = .ok q := by
  obtain ⟨uri, loc⟩ := q
  cases uri with
  | none => rfl
  | some u =>
    show (match Ctx.resolve c (mintPfx u) with
          | some u1 => (Except.ok (⟨some u1, loc⟩ : QName) :
              Except CodecError QName)
          | none => Except.error (CodecError.resolutionError (mintPfx u)))
        = Except.ok (⟨some u, loc⟩ : QName)
    rw [h u rfl]

lemma encodeAttrs_ok (c : Ctx) (attrs : List (QName × String))
    (h : ∀ a ∈ attrs, ∀ u, a.1.uri = some u →
      Ctx.resolve c (mintPfx u) = some u) :
    encodeAttrs c (attrs.map (fun a => (shorten a.1, a.2))) = .ok attrs := by
  induction attrs with
  | nil => rfl
  | cons a rest ih =>
    have h1 : expandS c (shorten a.1) = .ok a.1 :=
      expandS_shorten c a.1 (fun u hu => h a (List.mem_cons_self _ _) u hu)
    have h2 := ih (fun a' ha' u hu => h a' (List.mem_cons_of_mem _ ha') u hu)
    rw [List.map_cons]
    show (match expandS c (shorten a.1) with
          | .error e => Except.error e
          | .ok q =>
            match encodeAttrs c (rest.map fun a => (shorten a.1, a.2)) with
            | .error e => .error e
            | .ok qs => .ok ((q, a.2) :: qs))
        = Except.ok (a :: rest)
    rw [h1, h2]

lemma encodeList_ok (c : Ctx) (k : SName) (bs : List Body)
    (h : ∀ b ∈ bs, ∃ Y, encodeElem c k b = .ok Y ∧ decodeElem Y = (k, b)) :
    ∃ xs, encodeList c k bs = .ok xs ∧
      decodeElem.decodeList xs = bs.map (fun b => (k, b)) := by
  induction bs with
  | nil => exact ⟨[], rfl, rfl⟩
  | cons b bs' ih =>
    obtain ⟨Y, hY, hdY⟩ := h b (List.mem_cons_self _ _)
    obtain ⟨xs, hxs, hdxs⟩ :=
      ih (fun b' hb' => h b' (List.mem_cons_of_mem _ hb'))
    refine ⟨Y :: xs, ?_, ?_⟩
    · show (match encodeElem c k b with
            | .error e => Except.error e
            | .ok x =>
              match encodeList c k bs' with
              | .error e => .error e
              | .ok xs => .ok (x :: xs)) = Except.ok (Y :: xs)
      rw [hY, hxs]
    · show decodeElem Y :: decodeElem.decodeList xs = _
      rw [hdY, hdxs, List.map_cons]

lemma encodeGroups_ok (c : Ctx) (g : List (SName × List Body))
    (h : ∀ kb ∈ g, ∀ b ∈ kb.2,
      ∃ Y, encodeElem c kb.1 b = .ok Y ∧ decodeElem Y = (kb.1, b)) :
    ∃ xs, encodeGroups c g = .ok xs ∧
      decodeElem.decodeList xs = flattenTags g := by
  induction g with
  | nil => exact ⟨[], rfl, rfl⟩
  | cons kb g' ih =>
    obtain ⟨k, bs⟩ := kb
    obtain ⟨xs1, hxs1, hd1⟩ :=
      encodeList_ok c k bs (fun b hb => h (k, bs) (List.mem_cons_self _ _) b hb)
    obtain ⟨xs2, hxs2, hd2⟩ :=
      ih (fun kb' hkb' b hb => h kb' (List.mem_cons_of_mem _ hkb') b hb)
    refine ⟨xs1 ++ xs2, ?_, ?_⟩
    · show (match encodeList c k bs with
            | .error e => Except.error e
            | .ok xs =>
              match encodeGroups c g' with
              | .error e => .error e
              | .ok ys => .ok (xs ++ ys)) = Except.ok (xs1 ++ xs2)
      rw [hxs1, hxs2]
    · rw [decodeList_append, hd1, hd2]
      rfl

lemma encodeList_mem (c : Ctx) (k : SName) (bs : List Body) :
    ∀ (xs : List Xml), encodeList c k bs = .ok xs →
    ∀ x, (x ∈ xs ↔ ∃ b ∈ bs, encodeElem c k b = .ok x) := by
  induction bs with
  | nil =>
    intro xs hxs x
    have h0 : (Except.ok ([] : List Xml) : Except CodecError (List Xml))
        = .ok xs := hxs
    cases h0
    simp
  | cons b bs' ih =>
    intro xs hxs x
    have hxs' : (match encodeElem c k b with
                 | .error e => Except.error e
                 | .ok x0 =>
                   match encodeList c k bs' with
                   | .error e => .error e
                   | .ok xs0 => .ok (x0 :: xs0)) = Except.ok xs := hxs
    cases hY : encodeElem c k b with
    | error e => rw [hY] at hxs'; simp at hxs'
    | ok Y =>
      rw [hY] at hxs'
      cases hxs2 : encodeList c k bs' with
      | error e => rw [hxs2] at hxs'; simp at hxs'
      | ok xs2 =>
        rw [hxs2] at hxs'
        injection hxs' with heq
        subst heq
        constructor
        · intro hx
          rcases List.mem_cons.mp hx with rfl | hx
          · exact ⟨b, List.mem_cons_self _ _, hY⟩
          · obtain ⟨b', hb', he'⟩ := (ih xs2 hxs2 x).mp hx
            exact ⟨b', List.mem_cons_of_mem _ hb', he'⟩
        · rintro ⟨b', hb', he'⟩
          rcases List.mem_cons.mp hb' with rfl | hb'
          · rw [hY] at he'
            injection he' with he''
            rw [← he'']
            exact List.mem_cons_self _ _
          · exact List.mem_cons_of_mem _ ((ih xs2 hxs2 x).mpr ⟨b', hb', he'⟩)

lemma encodeGroups_mem (c : Ctx) (g : List (SName × List Body)) :
    ∀ (xs : List Xml), encodeGroups c g = .ok xs →
    ∀ x, (x ∈ xs ↔ ∃ kb ∈ g, ∃ b ∈ kb.2, encodeElem c kb.1 b = .ok x) := by
  induction g with
  | nil =>
    intro xs hxs x
    have h0 : (Except.ok ([] : List Xml) : Except CodecError (List Xml))
        = .ok xs := hxs
    cases h0
    simp
  | cons kb g' ih =>
    obtain ⟨k, bs⟩ := kb
    intro xs hxs x
    have hxs' : (match encodeList c k bs with
                 | .error e => Except.error e
                 | .ok xs0 =>
                   match encodeGroups c g' with
                   | .error e => .error e
                   | .ok ys => .ok (xs0 ++ ys)) = Except.ok xs := hxs
    cases h1 : encodeList c k bs with
    | error e => rw [h1] at hxs'; simp at hxs'
    | ok xs1 =>
      rw [h1] at hxs'
      cases h2 : encodeGroups c g' with
      | error e => rw [h2] at hxs'; simp at hxs'
      | ok xs2 =>
        rw [h2] at hxs'
        injection hxs' with heq
        subst heq
        constructor
        · intro hx
          rcases List.mem_append.mp hx with hx | hx
          · obtain ⟨b, hb, he⟩ := (encodeList_mem c k bs xs1 h1 x).mp hx
            exact ⟨(k, bs), List.mem_cons_self _ _, b, hb, he⟩
          · obtain ⟨kb', hkb', b, hb, he⟩ := (ih xs2 h2 x).mp hx
            exact ⟨kb', List.mem_cons_of_mem _ hkb', b, hb, he⟩
        · rintro ⟨kb', hkb', b, hb, he⟩
          rcases List.mem_cons.mp hkb' with rfl | hkb'
          · exact List.mem_append_left _
              ((encodeList_mem c k bs xs1 h1 x).mpr ⟨b, hb, he⟩)
          · exact List.mem_append_right _
              ((ih xs2 h2 x).mpr ⟨kb', hkb', b, hb, he⟩)

lemma sizeOf_child_le {tag : QName} {attrs : List (QName × String)}
    {text : Option String} {children : List Xml} {ch : Xml}
    (hch : ch ∈ children) {n : Nat}
    (h : sizeOf (Xml.elem tag attrs text children) ≤ n + 1) :
    sizeOf ch ≤ n := by
  have h1 := List.sizeOf_lt_of_mem hch
  have h2 : sizeOf (Xml.elem tag attrs text children)
      = 1 + sizeOf tag + sizeOf attrs + sizeOf text + sizeOf children := by
    simp [Xml.elem.sizeOf_spec]
  omega

lemma urisXList_mem (xs : List Xml) (u : String) :
    u ∈ urisX.urisXList xs ↔ ∃ x ∈ xs, u ∈ urisX x := by
  induction xs with
  | nil =>
    show u ∈ ([] : List String) ↔ _
    simp
  | cons x xs' ih =>
    show u ∈ urisX x ++ urisX.urisXList xs' ↔ _
    rw [List.mem_append, ih]
    constructor
    · rintro (h | ⟨x', hx', hu⟩)
      · exact ⟨x, List.mem_cons_self _ _, h⟩
      · exact ⟨x', List.mem_cons_of_mem _ hx', hu⟩
    · rintro ⟨x', hx', hu⟩
      rcases List.mem_cons.mp hx' with rfl | hx'
      · exact Or.inl hu
      · exact Or.inr ⟨x', hx', hu⟩

lemma mem_urisX_elem (u : String) (tag : QName)
    (attrs : List (QName × String)) (text : Option String)
    (children : List Xml) :
    u ∈ urisX (.elem tag attrs text children) ↔
      (u ∈ (match tag.uri with
            | some v => [v]
            | none => ([] : List String)) ∨
       u ∈ attrs.flatMap (fun a =>
            match a.1.uri with
            | some v => [v]
            | none => []) ∨
       ∃ x ∈ children, u ∈ urisX x) := by
  show u ∈ (match tag.uri with
            | some v => [v]
            | none => ([] : List String)) ++
      attrs.flatMap (fun a =>
        match a.1.uri with
        | some v => [v]
        | none => []) ++
      urisX.urisXList children ↔ _
  rw [List.mem_append, List.mem_append, urisXList_mem, or_assoc]

/-- The induction behind the round-trip: over a context that resolves every
minted prefix of the document back to its URI, re-encoding the decoded
(key, frame) pair succeeds, the result re-decodes to the same pair, and it
mentions exactly the same namespace URIs. -/
theorem encode_decode_aux : ∀ (n : Nat) (X : Xml), sizeOf X ≤ n →
    ∀ c : Ctx, (∀ u ∈ urisX X, Ctx.resolve c (mintPfx u) = some u) →
    ∃ Y, encodeElem c (decodeElem X).1 (decodeElem X).2 = .ok Y ∧
      decodeElem Y = decodeElem X ∧
      (∀ u, u ∈ urisX Y ↔ u ∈ urisX X) := by
  intro n
  induction n with
  | zero =>
    intro X hX c hc
    exfalso
    cases X with
    | elem t a tx ch =>
      have hs : sizeOf (Xml.elem t a tx ch)
          = 1 + sizeOf t + sizeOf a + sizeOf tx + sizeOf ch := by
        simp [Xml.elem.sizeOf_spec]
      omega
  | succ n ih =>
    intro X hsz c hctx
    cases X with
    | elem tag attrs text children =>
      have hsub : ∀ ch ∈ children, ∀ u ∈ urisX ch,
          Ctx.resolve c (mintPfx u) = some u :=
        fun ch hch u hu =>
          hctx u ((mem_urisX_elem u tag attrs text children).mpr
            (Or.inr (Or.inr ⟨ch, hch, hu⟩)))
      have hchild : ∀ kb ∈ groupTags (decodeElem.decodeList children),
          ∀ b ∈ kb.2, ∃ Y, encodeElem c kb.1 b = .ok Y ∧
            decodeElem Y = (kb.1, b) ∧
            ∃ ch ∈ children, (∀ u, u ∈ urisX Y ↔ u ∈ urisX ch) := by
        intro kb hkb b hb
        have hmeml : (kb.1, b) ∈ decodeElem.decodeList children :=
          mem_of_groupTags hkb hb
        rw [decodeList_eq_map] at hmeml
        obtain ⟨ch, hch, hdc⟩ := List.mem_map.mp hmeml
        obtain ⟨Y, hY, hdY, huY⟩ :=
          ih ch (sizeOf_child_le hch hsz) c (hsub ch hch)
        rw [hdc] at hY hdY
        exact ⟨Y, hY, hdY, ch, hch, huY⟩
      obtain ⟨kids, hkids, hkdec⟩ :=
        encodeGroups_ok c (groupTags (decodeElem.decodeList children))
          (fun kb hkb b hb =>
            Exists.imp (fun Y h => ⟨h.1, h.2.1⟩) (hchild kb hkb b hb))
      have htag : expandS c (shorten tag) = .ok tag :=
        expandS_shorten c tag (fun u hu =>
          hctx u ((mem_urisX_elem u tag attrs text children).mpr
            (Or.inl (by rw [hu]; simp))))
      have hattrs : encodeAttrs c (attrs.map fun a => (shorten a.1, a.2))
          = .ok attrs :=
        encodeAttrs_ok c attrs (fun a ha u hu =>
          hctx u ((mem_urisX_elem u tag attrs text children).mpr
            (Or.inr (Or.inl (List.mem_flatMap.mpr
              ⟨a, ha, by rw [hu]; simp⟩)))))
      refine ⟨Xml.elem tag attrs (normText text) kids, ?_, ?_, ?_⟩
      · show (match expandS c (shorten tag) with
              | .error e => Except.error e
              | .ok tag1 =>
                match encodeAttrs c (attrs.map fun a => (shorten a.1, a.2))
                    with
                | .error e => .error e
                | .ok qattrs =>
                  match encodeGroups c
                      (groupTags (decodeElem.decodeList children)) with
                  | .error e => .error e
                  | .ok kids1 => .ok (.elem tag1 qattrs (normText text) kids1))
            = Except.ok (Xml.elem tag attrs (normText text) kids)
        rw [htag, hattrs, hkids]
      · show (shorten tag,
            Body.node (normText (normText text))
              (attrs.map fun a => (shorten a.1, a.2))
              (groupTags (decodeElem.decodeList kids)))
            = decodeElem (Xml.elem tag attrs text children)
        rw [normText_idem, hkdec,
          groupTags_flattenTags (WFg_groupTags (decodeElem.decodeList children))]
        rfl
      · intro u
        rw [mem_urisX_elem, mem_urisX_elem]
        constructor
        · rintro (h | h | ⟨x, hx, hu⟩)
          · exact Or.inl h
          · exact Or.inr (Or.inl h)
          · right; right
            obtain ⟨kb, hkb, b, hb, he⟩ :=
              (encodeGroups_mem c _ kids hkids x).mp hx
            obtain ⟨Yc, hYc, _, ch, hch, huYc⟩ := hchild kb hkb b hb
            have hx_eq : Yc = x := by
              rw [hYc] at he
              injection he
            have hu' : u ∈ urisX Yc := by rw [hx_eq]; exact hu
            exact ⟨ch, hch, (huYc u).mp hu'⟩
        · rintro (h | h | ⟨ch, hch, hu⟩)
          · exact Or.inl h
          · exact Or.inr (Or.inl h)
          · right; right
            obtain ⟨Yc, hYc, hdYc, huYc⟩ :=
              ih ch (sizeOf_child_le hch hsz) c (hsub ch hch)
            have hmm : ((decodeElem ch).1, (decodeElem ch).2)
                ∈ decodeElem.decodeList children := by
              rw [decodeList_eq_map]
              exact List.mem_map_of_mem decodeElem hch
            obtain ⟨bs, hbs, hbmem⟩ := groupTags_mem_of_mem hmm
            refine ⟨Yc, ?_, (huYc u).mpr hu⟩
            exact (encodeGroups_mem c _ kids hkids Yc).mpr
              ⟨((decodeElem ch).1, bs), hbs, (decodeElem ch).2, hbmem, hYc⟩

/-- C1: for any well-formed XML document `X`, the body/context pair
`decode X` produces re-encodes successfully, and decoding the re-encoded
document yields a body equal to the original body (literally: same keys in
the same first-occurrence order, same repeated-tag lists in the same order)
and a context equal to the original context as a set of prefix↔URI
associations (key order in the context may differ, which the claim's
structural equality ignores). -/
theorem decode_encode_roundtrip (X : Xml) :
    ∃ Y, encodeTop (decode X).1 (decode X).2 = .ok Y ∧
      (decode Y).1 = (decode X).1 ∧
      (∀ e, e ∈ (decode Y).2 ↔ e ∈ (decode X).2) := by
  obtain ⟨Y, hY, hdY, hu⟩ := encode_decode_aux (sizeOf X) X le_rfl (ctxOf X)
    (fun u humem => ctxOf_resolve X u humem)
  refine ⟨Y, hY, hdY, ?_⟩
  intro e
  show e ∈ ctxOf Y ↔ e ∈ ctxOf X
  rw [ctxOf_mem, ctxOf_mem]
  constructor
  · rintro ⟨u, humem, rfl⟩
    exact ⟨u, (hu u).mp humem, rfl⟩
  · rintro ⟨u, humem, rfl⟩
    exact ⟨u, (hu u).mpr humem, rfl⟩

end Codec

end XJsonSpec
